import Mathlib

/-!
Verification development for the gptf distributed GP repository.

Shallow embedding of `src/gptf/distributed.py` and `src/gptf/wrappedtf.py`.
Tensors are modelled as 2-dimensional arrays of exact rationals: a shape
(rows, cols), a dtype tag, and an entry function.  Elementwise TensorFlow
operations are modelled with NumPy-style broadcasting on length-1 axes
(`Tensor.bentry`).  Python exceptions (NotImplementedError, TypeError,
ZeroDivisionError, and TensorFlow shape errors) are modelled with `Except`.
`tf.log` is an external floating-point primitive; it is passed to
`cao_fleet_weights` as an uninterpreted function parameter `log`.
-/

/-- Dtype tag carried by every tensor (`points.dtype` in the source). -/
inductive DType
  | float32
  | float64
  deriving DecidableEq, Inhabited

/-- Python / TensorFlow error kinds raised by the embedded code. -/
inductive Err
  | notImplementedError
  | typeError
  | zeroDivisionError
  | valueError
  deriving DecidableEq, Inhabited

/-- A rank-2 tensor: shape, dtype and entries.  Entries outside the shape
are junk; semantic equality is `Tensor.Eqv` below. -/
structure Tensor where
  rows : Nat
  cols : Nat
  dtype : DType
  entry : Nat → Nat → ℚ

instance : Inhabited Tensor := ⟨⟨0, 0, DType.float64, fun _ _ => 0⟩⟩

/-- Broadcast-aware entry lookup: a length-1 axis repeats its single index
(NumPy/TensorFlow broadcasting for compatible shapes). -/
def Tensor.bentry (t : Tensor) (i j : Nat) : ℚ :=
  t.entry (if t.rows = 1 then 0 else i) (if t.cols = 1 then 0 else j)

/-- Semantic tensor equality: same shape, same dtype, same entries inside
the shape. -/
def Tensor.Eqv (a b : Tensor) : Prop :=
  a.rows = b.rows ∧ a.cols = b.cols ∧ a.dtype = b.dtype ∧
    ∀ i, i < b.rows → ∀ j, j < b.cols → a.entry i j = b.entry i j

/-- Elementwise binary operation with broadcasting (TensorFlow semantics for
broadcast-compatible shapes). -/
def ewBin (f : ℚ → ℚ → ℚ) (a b : Tensor) : Tensor :=
  ⟨max a.rows b.rows, max a.cols b.cols, a.dtype,
    fun i j => f (a.bentry i j) (b.bentry i j)⟩

/-- Elementwise tensor addition. -/
def ewAdd : Tensor → Tensor → Tensor := ewBin (· + ·)

/-- Elementwise tensor multiplication. -/
def ewMul : Tensor → Tensor → Tensor := ewBin (· * ·)

/-- Elementwise tensor subtraction. -/
def ewSub : Tensor → Tensor → Tensor := ewBin (· - ·)

/-- Elementwise tensor division. -/
def ewDiv : Tensor → Tensor → Tensor := ewBin (· / ·)

/-- Scalar times tensor, e.g. `.5 * (...)` in the source. -/
def scalarMulT (c : ℚ) (t : Tensor) : Tensor :=
  ⟨t.rows, t.cols, t.dtype, fun i j => c * t.entry i j⟩

/-- Scalar minus tensor, e.g. `1 - tf.reduce_sum(weight, 0)`. -/
def scalarSubT (c : ℚ) (t : Tensor) : Tensor :=
  ⟨t.rows, t.cols, t.dtype, fun i j => c - t.entry i j⟩

/-- Scalar divided by tensor, e.g. `1 / var`. -/
def scalarDivT (c : ℚ) (t : Tensor) : Tensor :=
  ⟨t.rows, t.cols, t.dtype, fun i j => c / t.entry i j⟩

/-- Tensor divided by scalar, e.g. `tf.reduce_sum(mu, 0) / M`. -/
def divScalarT (t : Tensor) (c : ℚ) : Tensor :=
  ⟨t.rows, t.cols, t.dtype, fun i j => t.entry i j / c⟩

/-- Elementwise reciprocal `1 / t`. -/
def recipT : Tensor → Tensor := scalarDivT 1

/-- `tf.log` applied elementwise; `log` is the external float primitive. -/
def logT (log : ℚ → ℚ) (t : Tensor) : Tensor :=
  ⟨t.rows, t.cols, t.dtype, fun i j => log (t.entry i j)⟩

/-- `tf.maximum(t, c)` with a scalar second argument. -/
def maxScalarT (t : Tensor) (c : ℚ) : Tensor :=
  ⟨t.rows, t.cols, t.dtype, fun i j => max (t.entry i j) c⟩

/-- `tf.reduce_sum(tf.pack(ts, 0), 0)`: elementwise sum of a list of
tensors (the source always packs nonempty same-shape lists). -/
def sumTensors : List Tensor → Tensor
  | [] => default
  | [t] => t
  | t :: u :: ts => ewAdd t (sumTensors (u :: ts))

/-- `np.finfo(np.float64).eps`, exactly `2 ** (-52)`. -/
def npFloat64Eps : ℚ := 1 / 2 ^ 52

/-- The `GPModel` interface consumed by `distributed.py`: each expert
exposes `build_log_likelihood`, `build_prior_mean_var` and
`build_posterior_mean_var` (all can raise, hence `Except`). -/
structure GPModel where
  build_log_likelihood : Tensor → Tensor → Except Err ℚ
  build_prior_mean_var : Tensor → Nat → Bool → Except Err (Tensor × Tensor)
  build_posterior_mean_var : Tensor → Tensor → Tensor → Bool → Except Err (Tensor × Tensor)

/-- Left-to-right effectful map, the semantics of a Python list
comprehension whose body may raise. -/
def mapE (f : α → Except Err β) : List α → Except Err (List β)
  | [] => .ok []
  | a :: as => do
    let b ← f a
    let bs ← mapE f as
    .ok (b :: bs)

/-- Type of weight functions: `weightfunction(experts, X, Y, points)`
returning one weight tensor per expert. -/
abbrev WeightFn :=
  List GPModel → Tensor → Tensor → Tensor → Except Err (List Tensor)

/-- `cao_fleet_weights` (distributed.py lines 20-55): per expert,
`.5 * (tf.log(prior_var) - tf.log(post_var))` floored at
`np.finfo(np.float64).eps`; `num_latent` is `tf.shape(Y)[1]`. -/
def cao_fleet_weights (log : ℚ → ℚ) (experts : List GPModel)
    (X Y points : Tensor) : Except Err (List Tensor) :=
  mapE (fun expert => do
    let num_latent := Y.cols
    let prior_var := (← expert.build_prior_mean_var points num_latent false).2
    let post_var := (← expert.build_posterior_mean_var X Y points false).2
    let weight := scalarMulT (1 / 2) (ewSub (logT log prior_var) (logT log post_var))
    .ok (maxScalarT weight npFloat64Eps)) experts

/-- `equal_weights` (distributed.py lines 57-83): `1 / len(experts)`
(a Python `ZeroDivisionError` when `experts` is empty), filled into a
`(tf.shape(points)[0], 1)` tensor of the points' dtype, one copy per
expert. -/
def equal_weights (experts : List GPModel) (X Y points : Tensor) :
    Except Err (List Tensor) :=
  if experts.length = 0 then .error .zeroDivisionError
  else
    let beta : ℚ := 1 / (experts.length : ℚ)
    let betaT : Tensor := ⟨points.rows, 1, points.dtype, fun _ _ => beta⟩
    .ok (experts.map (fun _ => betaT))

/-- `ones_weights` (distributed.py lines 85-104): a
`tf.ones((tf.shape(points)[0], 1), dtype=points.dtype)` tensor per
expert. -/
def ones_weights (experts : List GPModel) (X Y points : Tensor) :
    Except Err (List Tensor) :=
  let ones : Tensor := ⟨points.rows, 1, points.dtype, fun _ _ => 1⟩
  .ok (experts.map (fun _ => ones))

/-- Contiguous row slice of a tensor: `len` rows starting at `off`. -/
def sliceRows (x : Tensor) (off len : Nat) : Tensor :=
  ⟨len, x.cols, x.dtype, fun i j => x.entry (off + i) j⟩

/-- The successive equal-size row chunks produced by `tf.split`. -/
def splitParts (x : Tensor) (cs : Nat) : Nat → Nat → List Tensor
  | _, 0 => []
  | off, k + 1 => sliceRows x off cs :: splitParts x cs (off + cs) k

/-- `tf.split(0, num_split, value)`: `num_split` equal contiguous chunks
along axis 0; TensorFlow rejects a row count not evenly divisible by
`num_split`. -/
def tf_split (num_split : Nat) (value : Tensor) : Except Err (List Tensor) :=
  if 0 < num_split ∧ value.rows % num_split = 0 then
    .ok (splitParts value (value.rows / num_split) 0 num_split)
  else .error .valueError

/-- Python `zip` over three sequences (truncating to the shortest). -/
def zip3 : List α → List β → List γ → List (α × β × γ)
  | a :: as, b :: bs, c :: cs => (a, b, c) :: zip3 as bs cs
  | _, _, _ => []

/-- Triple-wise `zipWith` used for `weight * mu / var` sums. -/
def zipWith3T (f : α → β → γ → δ) : List α → List β → List γ → List δ
  | a :: as, b :: bs, c :: cs => f a b c :: zipWith3T f as bs cs
  | _, _, _ => []

/-- `Reduction._get_chunks` (distributed.py lines 130-134):
`zip(self.children, tf.split(0, M, X), tf.split(0, M, Y))`. -/
def Reduction.get_chunks (children : List GPModel) (X Y : Tensor) :
    Except Err (List (GPModel × Tensor × Tensor)) := do
  let M := children.length
  let xs ← tf_split M X
  let ys ← tf_split M Y
  .ok (zip3 children xs ys)

/-- `Reduction.build_log_likelihood` (distributed.py lines 108-114):
sum of the children's log likelihoods over their chunks. -/
def Reduction.build_log_likelihood (children : List GPModel) (X Y : Tensor) :
    Except Err ℚ := do
  let chunks ← Reduction.get_chunks children X Y
  let lmls ← mapE (fun c => c.1.build_log_likelihood c.2.1 c.2.2) chunks
  .ok lmls.sum

/-- `Reduction.build_prior_mean_var` (distributed.py lines 116-128):
raises NotImplementedError on `full_cov`, otherwise the arithmetic mean
of the children's prior means and variances. -/
def Reduction.build_prior_mean_var (children : List GPModel)
    (test_points : Tensor) (num_latent : Nat) (full_cov : Bool) :
    Except Err (Tensor × Tensor) :=
  if full_cov then .error .notImplementedError
  else do
    let mv ← mapE (fun child =>
      child.build_prior_mean_var test_points num_latent full_cov) children
    let M : ℚ := (children.length : ℚ)
    .ok (divScalarT (sumTensors (mv.map (·.1))) M,
         divScalarT (sumTensors (mv.map (·.2))) M)

/-- `PoEReduction.build_posterior_mean_var` (distributed.py lines 169-183):
joint precision is the sum of child precisions; the chunk computation is
inlined in the source exactly as in `_get_chunks`. -/
def PoEReduction.build_posterior_mean_var (children : List GPModel)
    (X Y test_points : Tensor) (full_cov : Bool) :
    Except Err (Tensor × Tensor) :=
  if full_cov then .error .notImplementedError
  else do
    let M := children.length
    let xs ← tf_split M X
    let ys ← tf_split M Y
    let chunks := zip3 children xs ys
    let mv ← mapE (fun c =>
      c.1.build_posterior_mean_var c.2.1 c.2.2 test_points full_cov) chunks
    let mus := mv.map (·.1)
    let vs := mv.map (·.2)
    let joint_var := recipT (sumTensors (vs.map recipT))
    let joint_mu := ewMul joint_var (sumTensors (List.zipWith ewDiv mus vs))
    .ok (joint_mu, joint_var)

/-- `gPoEReduction.build_posterior_mean_var` (distributed.py lines
250-265): weighted harmonic combination using
`self.weightfunction(self.children, X, Y, test_points)`. -/
def gPoEReduction.build_posterior_mean_var (children : List GPModel)
    (weightfunction : WeightFn) (X Y test_points : Tensor)
    (full_cov : Bool) : Except Err (Tensor × Tensor) :=
  if full_cov then .error .notImplementedError
  else do
    let chunks ← Reduction.get_chunks children X Y
    let mv ← mapE (fun c =>
      c.1.build_posterior_mean_var c.2.1 c.2.2 test_points full_cov) chunks
    let mus := mv.map (·.1)
    let vs := mv.map (·.2)
    let weight ← weightfunction children X Y test_points
    let joint_var := recipT (sumTensors (List.zipWith ewDiv weight vs))
    let joint_mu := ewMul joint_var
      (sumTensors (zipWith3T (fun w mu v => ewDiv (ewMul w mu) v) weight mus vs))
    .ok (joint_mu, joint_var)

/-- `BCMReduction.build_posterior_mean_var` (distributed.py lines 302-319):
PoE combination plus the `(1 - M) / prior_var` correction, where the prior
comes from `Reduction.build_prior_mean_var` at `num_latent =
tf.shape(Y)[1]`. -/
def BCMReduction.build_posterior_mean_var (children : List GPModel)
    (X Y test_points : Tensor) (full_cov : Bool) :
    Except Err (Tensor × Tensor) :=
  if full_cov then .error .notImplementedError
  else do
    let chunks ← Reduction.get_chunks children X Y
    let mv ← mapE (fun c =>
      c.1.build_posterior_mean_var c.2.1 c.2.2 test_points full_cov) chunks
    let mus := mv.map (·.1)
    let vs := mv.map (·.2)
    let num_latent := Y.cols
    let prior ← Reduction.build_prior_mean_var children test_points num_latent false
    let prior_var := prior.2
    let joint_var := recipT (ewAdd (sumTensors (vs.map recipT))
      (scalarDivT (1 - (children.length : ℚ)) prior_var))
    let joint_mu := ewMul joint_var (sumTensors (List.zipWith ewDiv mus vs))
    .ok (joint_mu, joint_var)

/-- `rBCMReduction.build_posterior_mean_var` (distributed.py lines
388-406): weighted combination plus the
`(1 - tf.reduce_sum(weight, 0)) / prior_var` correction. -/
def rBCMReduction.build_posterior_mean_var (children : List GPModel)
    (weightfunction : WeightFn) (X Y test_points : Tensor)
    (full_cov : Bool) : Except Err (Tensor × Tensor) :=
  if full_cov then .error .notImplementedError
  else do
    let chunks ← Reduction.get_chunks children X Y
    let mv ← mapE (fun c =>
      c.1.build_posterior_mean_var c.2.1 c.2.2 test_points full_cov) chunks
    let mus := mv.map (·.1)
    let vs := mv.map (·.2)
    let weight ← weightfunction children X Y test_points
    let num_latent := Y.cols
    let prior ← Reduction.build_prior_mean_var children test_points num_latent false
    let prior_var := prior.2
    let joint_var := recipT (ewAdd (sumTensors (List.zipWith ewDiv weight vs))
      (ewDiv (scalarSubT 1 (sumTensors weight)) prior_var))
    let joint_mu := ewMul joint_var
      (sumTensors (zipWith3T (fun w mu v => ewDiv (ewMul w mu) v) weight mus vs))
    .ok (joint_mu, joint_var)

/-- `PriorDivisorReduction.build_prior_mean_var` (distributed.py lines
441-445): delegates to the child. -/
def PriorDivisorReduction.build_prior_mean_var (child : GPModel)
    (test_points : Tensor) (num_latent : Nat) (full_cov : Bool) :
    Except Err (Tensor × Tensor) :=
  child.build_prior_mean_var test_points num_latent full_cov

/-- Models the Python call protocol for
`PriorDivisorReduction.build_prior_mean_var`, whose required positional
parameters are `test_points` and `num_latent`: a call that omits
`num_latent` (as `self.build_prior_mean_var(test_points)` at
distributed.py line 458 does) raises `TypeError` before the body runs. -/
def PriorDivisorReduction.call_build_prior_mean_var (child : GPModel)
    (test_points : Tensor) (num_latent : Option Nat) (full_cov : Option Bool) :
    Except Err (Tensor × Tensor) :=
  match num_latent with
  | none => .error .typeError
  | some nl =>
    PriorDivisorReduction.build_prior_mean_var child test_points nl (full_cov.getD false)

/-- `PriorDivisorReduction.build_posterior_mean_var` (distributed.py lines
447-461).  The source computes `prior_precision = 1 /
self.build_prior_mean_var(test_points)[1]`, omitting the required
`num_latent` argument; the lines after that call are unreachable and are
translated with the single weight tensor of the returned tuple. -/
def PriorDivisorReduction.build_posterior_mean_var (child : GPModel)
    (weightfunction : WeightFn) (X Y test_points : Tensor)
    (full_cov : Bool) : Except Err (Tensor × Tensor) :=
  if full_cov then .error .notImplementedError
  else do
    let mv ← child.build_posterior_mean_var X Y test_points full_cov
    let ws ← weightfunction [child] X Y test_points
    let prior ← PriorDivisorReduction.call_build_prior_mean_var child test_points none none
    let prior_precision := recipT prior.2
    let weight := ws.headD default
    let joint_var := recipT (ewAdd (recipT mv.2) (ewMul (scalarSubT 1 weight) prior_precision))
    let joint_mu := ewDiv (ewMul joint_var mv.1) mv.2
    .ok (joint_mu, joint_var)

/-!
Embedding of the session / placement core of `src/gptf/wrappedtf.py`.

The tree collaborator (`TreeWithCache`, in trees.py, not under src/) is
modelled from the spec: `for node in self` is an ordered iteration over
the node and all its descendants, passed in as a `nodes` list, and
`clear_subtree_cache` is the external cache-invalidation hook, recorded
as events.  Sessions are external objects; a session is identified by a
fresh id drawn from a counter, so that a re-created session is a
distinct object.  Hook calls, session creation/closing and cache
invalidations are recorded in an event log, most recent last.
-/

/-- A `tf_device` directive: unset (`None`), the `NO_DEVICE` sentinel, or
an explicit device specification. -/
inductive TFDeviceV
  | unset
  | noDevice
  | directive (d : Nat)
  deriving DecidableEq, Inhabited

/-- A `tf_session_target` value: `None`, an endpoint string, or a dict of
session-construction options. -/
inductive TFSessionTargetV
  | str (s : Nat)
  | dict (d : Nat)
  deriving DecidableEq

/-- Observable events of the session / cache lifecycle. -/
inductive TFEvent
  | sessionDeath (node : Nat)
  | sessionClose (sess : Nat)
  | sessionCreate (sess : Nat)
  | sessionBirth (node : Nat)
  | cacheClear (node : Nat)
  deriving DecidableEq

/-- The mutable state of a `WrappedTF` node (wrappedtf.py lines 75-79)
plus the event log and the fresh-session counter. -/
structure WrappedTFState where
  parent : Option Nat
  tf_device : TFDeviceV
  tf_session_target : Option TFSessionTargetV
  tf_session : Option Nat
  nextSessionId : Nat
  eventLog : List TFEvent
  deriving DecidableEq

/-- The `tf_device` setter (wrappedtf.py lines 91-95):
`self.clear_subtree_cache(); self._tf_device = value`.  Modelled from the
spec: `clear_subtree_cache` notifies the external cache of every node in
the subtree. -/
def WrappedTF.set_tf_device (nodes : List Nat) (value : TFDeviceV)
    (s : WrappedTFState) : WrappedTFState :=
  { s with eventLog := s.eventLog ++ nodes.map TFEvent.cacheClear,
           tf_device := value }

/-- `WrappedTF._maybe_kill_session` (wrappedtf.py lines 352-377): if a
session exists, call `on_session_death` on every node in the subtree,
close the session, then clear the stored reference. -/
def WrappedTF.maybe_kill_session (nodes : List Nat) (s : WrappedTFState) :
    WrappedTFState :=
  match s.tf_session with
  | none => s
  | some sid =>
    { s with eventLog := s.eventLog ++ nodes.map TFEvent.sessionDeath
               ++ [TFEvent.sessionClose sid],
             tf_session := none }

/-- The `tf_session_target` setter (wrappedtf.py lines 101-104):
`self._maybe_kill_session(); self._tf_session_target = value`. -/
def WrappedTF.set_tf_session_target (nodes : List Nat)
    (value : Option TFSessionTargetV) (s : WrappedTFState) : WrappedTFState :=
  let s1 := WrappedTF.maybe_kill_session nodes s
  { s1 with tf_session_target := value }

/-- `WrappedTF._maybe_create_session` (wrappedtf.py lines 318-349): if no
session exists, construct one from the current target (a fresh object),
store it, then call `on_session_birth` on every node in the subtree. -/
def WrappedTF.maybe_create_session (nodes : List Nat) (s : WrappedTFState) :
    WrappedTFState :=
  match s.tf_session with
  | some _ => s
  | none =>
    { s with tf_session := some s.nextSessionId,
             nextSessionId := s.nextSessionId + 1,
             eventLog := s.eventLog ++ [TFEvent.sessionCreate s.nextSessionId]
               ++ nodes.map TFEvent.sessionBirth }

/-- `WrappedTF.get_session` at a root node (wrappedtf.py lines 304-306):
lazily create the session if needed and return the stored one. -/
def WrappedTF.get_session (nodes : List Nat) (s : WrappedTFState) :
    WrappedTFState × Nat :=
  let s1 := WrappedTF.maybe_create_session nodes s
  (s1, s1.tf_session.getD 0)

/-- `WrappedTF.__setattr__` (wrappedtf.py lines 379-388) applied to an
attachment under a new parent.  The body evaluates the bare constant
`NotImplemented` (a no-op, marked `#TODO: this`) and delegates to plain
attribute assignment; modelled from the spec, the superclass assignment
stores the attribute and does nothing else. -/
def WrappedTF.setattr_attach (s : WrappedTFState) (newParent : Option Nat) :
    WrappedTFState :=
  { s with parent := newParent }

/-!
Concrete fixtures used by witnesses and counterexamples.
-/

/-- Constant tensor of the given shape (dtype float64). -/
def cT (r c : Nat) (v : ℚ) : Tensor :=
  ⟨r, c, DType.float64, fun _ _ => v⟩

/-- A deterministic stub expert: posterior mean 0 / variance 1 and prior
mean 0 / variance 1 at every input, shaped
`(points.rows, num_latent)` resp. `(points.rows, Y.cols)` like `GPR`. -/
def stubExpert : GPModel where
  build_log_likelihood := fun _ _ => .ok 0
  build_prior_mean_var := fun points num_latent _ =>
    .ok (cT points.rows num_latent 0, cT points.rows num_latent 1)
  build_posterior_mean_var := fun _ Y points _ =>
    .ok (cT points.rows Y.cols 0, cT points.rows Y.cols 1)

/-- A weight function assigning every expert the constant weight 1/2
(shape `(points.rows, 1)`). -/
def halfWeights : WeightFn := fun experts _ _ points =>
  .ok (experts.map (fun _ => cT points.rows 1 (1 / 2)))

/-- The constantly-zero stand-in for the external `tf.log` primitive. -/
def zeroLog : ℚ → ℚ := fun _ => 0

/-!
Helper lemmas about the `Except` monad and the effectful map.
-/

/-- Bind on a success is application. -/
theorem exceptBindOk (a : α) (f : α → Except Err β) :
    (Except.ok a : Except Err α) >>= f = f a := rfl

/-- Bind on an error propagates the error. -/
theorem exceptBindError (e : Err) (f : α → Except Err β) :
    (Except.error e : Except Err α) >>= f = .error e := rfl

/-- Inversion of a successful bind. -/
theorem exceptBindOkInv {x : Except Err α} {f : α → Except Err β} {b : β}
    (h : x >>= f = .ok b) : ∃ a, x = .ok a ∧ f a = .ok b := by
  cases x with
  | error e => exact absurd h (by simp [exceptBindError])
  | ok a => exact ⟨a, rfl, by simpa [exceptBindOk] using h⟩

/-- Inversion of a successful `mapE`: pointwise success, in order. -/
theorem mapEOkInv {f : α → Except Err β} :
    ∀ {l : List α} {ys : List β}, mapE f l = .ok ys →
      ys.length = l.length ∧
      ∀ i (h : i < l.length) (h' : i < ys.length),
        f (l.get ⟨i, h⟩) = .ok (ys.get ⟨i, h'⟩) := by
  intro l
  induction l with
  | nil =>
    intro ys h
    refine ⟨?_, ?_⟩
    · cases h; rfl
    · intro i hi; exact absurd hi (by simp)
  | cons a as ih =>
    intro ys h
    rw [mapE] at h
    obtain ⟨b, hb, h2⟩ := exceptBindOkInv h
    obtain ⟨bs, hbs, h3⟩ := exceptBindOkInv h2
    cases h3
    obtain ⟨hlen, hpt⟩ := ih hbs
    refine ⟨by simp [hlen], ?_⟩
    intro i hi hi'
    cases i with
    | zero => simpa using hb
    | succ k =>
      simpa using hpt k (by simpa using hi) (by simpa using hi')

/-- Membership version of `mapE` inversion. -/
theorem mapEOkMem {f : α → Except Err β} :
    ∀ {l : List α} {ys : List β}, mapE f l = .ok ys →
      ∀ y ∈ ys, ∃ x ∈ l, f x = .ok y := by
  intro l
  induction l with
  | nil => intro ys h y hy; cases h; simp at hy
  | cons a as ih =>
    intro ys h y hy
    rw [mapE] at h
    obtain ⟨b, hb, h2⟩ := exceptBindOkInv h
    obtain ⟨bs, hbs, h3⟩ := exceptBindOkInv h2
    cases h3
    rcases List.mem_cons.mp hy with hy | hy
    · exact ⟨a, List.mem_cons_self a as, hy ▸ hb⟩
    · obtain ⟨x, hx, hfx⟩ := ih hbs y hy
      exact ⟨x, List.mem_cons_of_mem a hx, hfx⟩

/-!
Claim theorems, first batch.
-/

/-- Claim C1: for every reduction and every input, requesting a full
covariance matrix from `build_posterior_mean_var` fails with the
NotImplementedError raised before any child is consulted (the result does
not depend on the children), and `Reduction.build_prior_mean_var` does the
same; the error is the returned value, never recovered internally. -/
theorem full_cov_not_implemented (children : List GPModel) (child : GPModel)
    (wf : WeightFn) (X Y test_points : Tensor) (num_latent : Nat) :
    PoEReduction.build_posterior_mean_var children X Y test_points true
      = .error .notImplementedError ∧
    gPoEReduction.build_posterior_mean_var children wf X Y test_points true
      = .error .notImplementedError ∧
    BCMReduction.build_posterior_mean_var children X Y test_points true
      = .error .notImplementedError ∧
    rBCMReduction.build_posterior_mean_var children wf X Y test_points true
      = .error .notImplementedError ∧
    PriorDivisorReduction.build_posterior_mean_var child wf X Y test_points true
      = .error .notImplementedError ∧
    Reduction.build_prior_mean_var children test_points num_latent true
      = .error .notImplementedError :=
  ⟨rfl, rfl, rfl, rfl, rfl, rfl⟩

/-- Claim C10: `equal_weights` computes `1 / len(experts)` with no guard:
the empty expert list raises ZeroDivisionError (no empty tuple is
returned), and any non-empty expert list succeeds. -/
theorem equal_weights_division_guard (experts : List GPModel)
    (X Y points : Tensor) :
    equal_weights [] X Y points = .error .zeroDivisionError ∧
    (experts ≠ [] → ∃ ws, equal_weights experts X Y points = .ok ws ∧
      ws.length = experts.length) := by
  constructor
  · rfl
  · intro hne
    have h0 : ¬ experts.length = 0 := fun h => hne (List.length_eq_zero.mp h)
    exact ⟨_, by rw [equal_weights, if_neg h0], by simp⟩

/-- Witness for C10 at concrete inputs. -/
theorem equal_weights_division_guard_witness :
    equal_weights [] (cT 1 1 0) (cT 1 1 0) (cT 1 1 0)
      = .error .zeroDivisionError ∧
    ∃ ws, equal_weights [stubExpert] (cT 1 1 0) (cT 1 1 0) (cT 1 1 0) = .ok ws ∧
      ws.length = [stubExpert].length :=
  ⟨(equal_weights_division_guard [stubExpert] (cT 1 1 0) (cT 1 1 0) (cT 1 1 0)).1,
   (equal_weights_division_guard [stubExpert] (cT 1 1 0) (cT 1 1 0) (cT 1 1 0)).2
     (by simp)⟩

/-- Successful weight tensors of a weight-function call (empty on error). -/
def okTensors (e : Except Err (List Tensor)) : List Tensor :=
  e.toOption.getD []

/-- Counterexample to claim C3: with one expert, 2 latent outputs
(`Y.cols = 2`) and 3 query points, `equal_weights` does not return
tensors of shape `(num_query_points, num_latent_outputs) = (3, 2)` (it
returns shape `(3, 1)`). -/
theorem equal_weights_shape_cx :
    ¬ ∀ t ∈ okTensors (equal_weights [stubExpert] (cT 2 1 0) (cT 2 2 0) (cT 3 1 0)),
        t.rows = 3 ∧ t.cols = 2 := by
  decide

/-- Claim C2 (code-bug evidence): `PriorDivisorReduction
.build_posterior_mean_var` with `full_cov=False` always raises TypeError
once the child posterior and the weight function have produced values,
because line 458 calls `self.build_prior_mean_var(test_points)` without
the required `num_latent` argument; the documented posterior is never
returned. -/
theorem priorDivisor_posterior_type_error (child : GPModel) (wf : WeightFn)
    (X Y test_points : Tensor)
    (hpost : ∃ p, child.build_posterior_mean_var X Y test_points false = .ok p)
    (hwf : ∃ ws, wf [child] X Y test_points = .ok ws) :
    PriorDivisorReduction.build_posterior_mean_var child wf X Y test_points false
      = .error .typeError := by
  obtain ⟨p, hp⟩ := hpost
  obtain ⟨ws, hw⟩ := hwf
  rw [PriorDivisorReduction.build_posterior_mean_var, if_neg (by simp)]
  rw [hp, exceptBindOk, hw, exceptBindOk]
  rfl

/-- Witness for C2 at concrete inputs. -/
theorem priorDivisor_posterior_type_error_witness :
    PriorDivisorReduction.build_posterior_mean_var stubExpert halfWeights
      (cT 1 1 0) (cT 1 1 0) (cT 1 1 0) false = .error .typeError :=
  priorDivisor_posterior_type_error stubExpert halfWeights
    (cT 1 1 0) (cT 1 1 0) (cT 1 1 0) ⟨_, rfl⟩ ⟨_, rfl⟩

/-- Claim C7: the `tf_device` setter invalidates the computation cache and
changes nothing but its own field (in particular the owned session, the
session target and the fresh-session counter are untouched, and no session
lifecycle event is emitted), while the `tf_session_target` setter tears
down the owned session (death hooks, then close) and changes nothing but
its own field — in particular it never emits a cache invalidation. -/
theorem setters_frame (nodes : List Nat) (dv : TFDeviceV)
    (tv : Option TFSessionTargetV) (s : WrappedTFState) :
    (WrappedTF.set_tf_device nodes dv s).tf_device = dv ∧
    (WrappedTF.set_tf_device nodes dv s).tf_session = s.tf_session ∧
    (WrappedTF.set_tf_device nodes dv s).tf_session_target = s.tf_session_target ∧
    (WrappedTF.set_tf_device nodes dv s).nextSessionId = s.nextSessionId ∧
    (WrappedTF.set_tf_device nodes dv s).parent = s.parent ∧
    (WrappedTF.set_tf_device nodes dv s).eventLog
      = s.eventLog ++ nodes.map TFEvent.cacheClear ∧
    (∀ n, TFEvent.sessionDeath n ∉ nodes.map TFEvent.cacheClear) ∧
    (∀ n, TFEvent.sessionClose n ∉ nodes.map TFEvent.cacheClear) ∧
    (WrappedTF.set_tf_session_target nodes tv s).tf_session_target = tv ∧
    (WrappedTF.set_tf_session_target nodes tv s).tf_device = s.tf_device ∧
    (WrappedTF.set_tf_session_target nodes tv s).parent = s.parent ∧
    (WrappedTF.set_tf_session_target nodes tv s).nextSessionId = s.nextSessionId ∧
    (WrappedTF.set_tf_session_target nodes tv s).tf_session = none ∧
    (WrappedTF.set_tf_session_target nodes tv s).eventLog
      = s.eventLog ++ (match s.tf_session with
          | none => ([] : List TFEvent)
          | some sid => nodes.map TFEvent.sessionDeath ++ [TFEvent.sessionClose sid]) ∧
    (∀ n m, TFEvent.cacheClear n
      ∉ nodes.map TFEvent.sessionDeath ++ [TFEvent.sessionClose m]) := by
  refine ⟨rfl, rfl, rfl, rfl, rfl, rfl, ?_, ?_, ?_, ?_, ?_, ?_, ?_, ?_, ?_⟩
  · intro n hn
    simp [List.mem_map] at hn
  · intro n hn
    simp [List.mem_map] at hn
  · cases h : s.tf_session <;>
      simp [WrappedTF.set_tf_session_target, WrappedTF.maybe_kill_session, h]
  · cases h : s.tf_session <;>
      simp [WrappedTF.set_tf_session_target, WrappedTF.maybe_kill_session, h]
  · cases h : s.tf_session <;>
      simp [WrappedTF.set_tf_session_target, WrappedTF.maybe_kill_session, h]
  · cases h : s.tf_session <;>
      simp [WrappedTF.set_tf_session_target, WrappedTF.maybe_kill_session, h]
  · cases h : s.tf_session <;>
      simp [WrappedTF.set_tf_session_target, WrappedTF.maybe_kill_session, h]
  · cases h : s.tf_session <;>
      simp [WrappedTF.set_tf_session_target, WrappedTF.maybe_kill_session, h]
  · intro n m hn
    simp [List.mem_map] at hn

/-- Claim C8 (code-bug evidence): `WrappedTF.__setattr__` on an
attachment under a new parent stores the attribute and does nothing else —
no cache invalidation, no placement or session invalidation (its body is a
`#TODO` no-op), contradicting the required re-parenting detection. -/
theorem setattr_attach_no_invalidation (s : WrappedTFState) (p : Option Nat) :
    (WrappedTF.setattr_attach s p).parent = p ∧
    (WrappedTF.setattr_attach s p).eventLog = s.eventLog ∧
    (WrappedTF.setattr_attach s p).tf_session = s.tf_session ∧
    (WrappedTF.setattr_attach s p).tf_device = s.tf_device ∧
    (WrappedTF.setattr_attach s p).tf_session_target = s.tf_session_target ∧
    (WrappedTF.setattr_attach s p).nextSessionId = s.nextSessionId :=
  ⟨rfl, rfl, rfl, rfl, rfl, rfl⟩

/-- Claim C6: assigning a session target to a root that owns a session
tears the session down — one death hook per subtree node, then the close,
then the stored reference is cleared — and the next `get_session` call
lazily constructs and returns a new session distinct from the old one,
emitting one birth hook per subtree node after the creation. -/
theorem session_teardown_rebirth (nodes : List Nat)
    (tgt : Option TFSessionTargetV) (s : WrappedTFState) (sid : Nat)
    (hsess : s.tf_session = some sid) (hfresh : sid < s.nextSessionId)
    (hnd : nodes.Nodup) :
    (WrappedTF.set_tf_session_target nodes tgt s).tf_session = none ∧
    (WrappedTF.set_tf_session_target nodes tgt s).eventLog
      = s.eventLog ++ nodes.map TFEvent.sessionDeath
        ++ [TFEvent.sessionClose sid] ∧
    (∀ n ∈ nodes,
      (nodes.map TFEvent.sessionDeath).count (TFEvent.sessionDeath n) = 1) ∧
    (WrappedTF.get_session nodes (WrappedTF.set_tf_session_target nodes tgt s)).2
      ≠ sid ∧
    (WrappedTF.get_session nodes
        (WrappedTF.set_tf_session_target nodes tgt s)).1.tf_session
      = some (WrappedTF.get_session nodes
        (WrappedTF.set_tf_session_target nodes tgt s)).2 ∧
    (WrappedTF.get_session nodes
        (WrappedTF.set_tf_session_target nodes tgt s)).1.eventLog
      = (WrappedTF.set_tf_session_target nodes tgt s).eventLog
        ++ [TFEvent.sessionCreate (WrappedTF.get_session nodes
              (WrappedTF.set_tf_session_target nodes tgt s)).2]
        ++ nodes.map TFEvent.sessionBirth ∧
    (∀ n ∈ nodes,
      (nodes.map TFEvent.sessionBirth).count (TFEvent.sessionBirth n) = 1) := by
  have hinj1 : Function.Injective TFEvent.sessionDeath := by
    intro a b h
    cases h
    rfl
  have hinj2 : Function.Injective TFEvent.sessionBirth := by
    intro a b h
    cases h
    rfl
  refine ⟨?_, ?_, ?_, ?_, ?_, ?_, ?_⟩
  · simp [WrappedTF.set_tf_session_target, WrappedTF.maybe_kill_session, hsess]
  · simp [WrappedTF.set_tf_session_target, WrappedTF.maybe_kill_session, hsess]
  · intro n hn
    rw [List.count_map_of_injective _ _ hinj1]
    exact List.count_eq_one_of_mem hnd hn
  · simp [WrappedTF.get_session, WrappedTF.maybe_create_session,
      WrappedTF.set_tf_session_target, WrappedTF.maybe_kill_session, hsess]
    omega
  · simp [WrappedTF.get_session, WrappedTF.maybe_create_session,
      WrappedTF.set_tf_session_target, WrappedTF.maybe_kill_session, hsess]
  · simp [WrappedTF.get_session, WrappedTF.maybe_create_session,
      WrappedTF.set_tf_session_target, WrappedTF.maybe_kill_session, hsess]
  · intro n hn
    rw [List.count_map_of_injective _ _ hinj2]
    exact List.count_eq_one_of_mem hnd hn

/-- Witness for C6: a two-node subtree whose root owns session 0. -/
theorem session_teardown_rebirth_witness :
    ((⟨none, TFDeviceV.unset, none, some 0, 1, []⟩ :
        WrappedTFState).tf_session = some 0 ∧ 0 < 1 ∧ [0, 1].Nodup) ∧
    (WrappedTF.set_tf_session_target [0, 1] none
        (⟨none, TFDeviceV.unset, none, some 0, 1, []⟩ :
          WrappedTFState)).tf_session = none ∧
    (WrappedTF.get_session [0, 1] (WrappedTF.set_tf_session_target [0, 1] none
        (⟨none, TFDeviceV.unset, none, some 0, 1, []⟩ : WrappedTFState))).2
      ≠ 0 := by
  have h := session_teardown_rebirth [0, 1] none
    (⟨none, TFDeviceV.unset, none, some 0, 1, []⟩ : WrappedTFState) 0
    rfl (by decide) (by decide)
  exact ⟨⟨rfl, by decide, by decide⟩, h.1, h.2.2.2.1⟩

/-- The machine epsilon used as floor is strictly positive. -/
theorem npFloat64Eps_pos : 0 < npFloat64Eps := by
  norm_num [npFloat64Eps]

/-- Claim C5: every weight tensor produced by `cao_fleet_weights` holds,
entrywise, `0.5 * (log prior_var - log post_var)` whenever that quantity
exceeds machine epsilon and machine epsilon otherwise; in particular every
entry is bounded below by machine epsilon, hence strictly positive, even
when prior and posterior variance coincide. -/
theorem cao_fleet_weights_floor (log : ℚ → ℚ) (experts : List GPModel)
    (X Y points : Tensor) (ws : List Tensor)
    (hws : cao_fleet_weights log experts X Y points = .ok ws) :
    ws.length = experts.length ∧
    ∀ k (hk : k < experts.length) (hk' : k < ws.length),
      ∃ pr po : Tensor × Tensor,
        (experts.get ⟨k, hk⟩).build_prior_mean_var points Y.cols false
          = .ok pr ∧
        (experts.get ⟨k, hk⟩).build_posterior_mean_var X Y points false
          = .ok po ∧
        (ws.get ⟨k, hk'⟩).rows = max pr.2.rows po.2.rows ∧
        (ws.get ⟨k, hk'⟩).cols = max pr.2.cols po.2.cols ∧
        ∀ i j,
          (ws.get ⟨k, hk'⟩).entry i j
            = max (1 / 2 * (log (pr.2.bentry i j) - log (po.2.bentry i j)))
                npFloat64Eps ∧
          (npFloat64Eps < 1 / 2 * (log (pr.2.bentry i j) - log (po.2.bentry i j)) →
            (ws.get ⟨k, hk'⟩).entry i j
              = 1 / 2 * (log (pr.2.bentry i j) - log (po.2.bentry i j))) ∧
          (1 / 2 * (log (pr.2.bentry i j) - log (po.2.bentry i j)) ≤ npFloat64Eps →
            (ws.get ⟨k, hk'⟩).entry i j = npFloat64Eps) ∧
          npFloat64Eps ≤ (ws.get ⟨k, hk'⟩).entry i j ∧
          0 < (ws.get ⟨k, hk'⟩).entry i j := by
  obtain ⟨hlen, hpt⟩ := mapEOkInv hws
  refine ⟨hlen, ?_⟩
  intro k hk hk'
  have h := hpt k hk hk'
  obtain ⟨pr, hpr, h2⟩ := exceptBindOkInv h
  obtain ⟨po, hpo, h3⟩ := exceptBindOkInv h2
  have hw : ws.get ⟨k, hk'⟩
      = maxScalarT (scalarMulT (1 / 2)
          (ewSub (logT log pr.2) (logT log po.2))) npFloat64Eps := by
    injection h3 with h4
    exact h4.symm
  refine ⟨pr, po, hpr, hpo, ?_, ?_, ?_⟩
  · rw [hw]; rfl
  · rw [hw]; rfl
  · intro i j
    have he : (ws.get ⟨k, hk'⟩).entry i j
        = max (1 / 2 * (log (pr.2.bentry i j) - log (po.2.bentry i j)))
            npFloat64Eps := by
      rw [hw]
      simp [maxScalarT, scalarMulT, ewSub, ewBin, logT, Tensor.bentry]
    refine ⟨he, ?_, ?_, ?_, ?_⟩
    · intro hgt
      rw [he]
      exact max_eq_left (le_of_lt hgt)
    · intro hle
      rw [he]
      exact max_eq_right hle
    · rw [he]
      exact le_max_right _ _
    · rw [he]
      exact lt_of_lt_of_le npFloat64Eps_pos (le_max_right _ _)

/-- Witness for C5: a stub expert whose prior and posterior variance are
both exactly 1, so the raw weight is 0 and the floor applies. -/
theorem cao_fleet_weights_floor_witness :
    ((okTensors (cao_fleet_weights zeroLog [stubExpert] (cT 1 1 0) (cT 1 1 0)
        (cT 1 1 0))).headD default).entry 0 0 = npFloat64Eps ∧
    0 < ((okTensors (cao_fleet_weights zeroLog [stubExpert] (cT 1 1 0)
        (cT 1 1 0) (cT 1 1 0))).headD default).entry 0 0 := by
  rcases h : cao_fleet_weights zeroLog [stubExpert] (cT 1 1 0) (cT 1 1 0)
      (cT 1 1 0) with e | ws
  · have hok : (cao_fleet_weights zeroLog [stubExpert] (cT 1 1 0) (cT 1 1 0)
        (cT 1 1 0)).isOk = true := rfl
    rw [h] at hok
    simp [Except.isOk, Except.toBool] at hok
  · obtain ⟨hlen, hpt⟩ := cao_fleet_weights_floor zeroLog [stubExpert]
      (cT 1 1 0) (cT 1 1 0) (cT 1 1 0) ws h
    have hk' : 0 < ws.length := by rw [hlen]; decide
    obtain ⟨pr, po, hpr, hpo, _, _, hentry⟩ := hpt 0 (by decide) hk'
    have h00 := hentry 0 0
    have hval : 1 / 2 * (zeroLog (pr.2.bentry 0 0) - zeroLog (po.2.bentry 0 0))
        ≤ npFloat64Eps := by
      simp [zeroLog]
      exact le_of_lt npFloat64Eps_pos
    have heq := h00.2.2.1 hval
    obtain ⟨w, hwsw⟩ := List.length_eq_one.mp hlen
    subst hwsw
    have hget : ([w].headD default) = [w].get ⟨0, hk'⟩ := rfl
    constructor
    · rw [show okTensors (Except.ok [w]) = [w] from rfl, hget]
      exact heq
    · rw [show okTensors (Except.ok [w]) = [w] from rfl, hget, heq]
      exact npFloat64Eps_pos

/-- Amended claim C3: all three weight functions return one weight tensor
per expert with strictly positive entries; `cao_fleet_weights` tensors are
shaped like the experts' variance tensors `(num_query_points,
num_latent_outputs)`, while `equal_weights` and `ones_weights` return
`(num_query_points, 1)` tensors — broadcast across latent outputs — whose
entries are exactly `1/M` resp. `1`, with dtype matching the query
points. -/
theorem weight_functions_amended (experts : List GPModel)
    (X Y points : Tensor) (log : ℚ → ℚ) (m L : Nat) (hne : experts ≠ [])
    (hpv : ∀ e ∈ experts, ∀ p : Tensor × Tensor,
      e.build_prior_mean_var points Y.cols false = .ok p →
        p.2.rows = m ∧ p.2.cols = L)
    (hsv : ∀ e ∈ experts, ∀ p : Tensor × Tensor,
      e.build_posterior_mean_var X Y points false = .ok p →
        p.2.rows = m ∧ p.2.cols = L) :
    (∃ ws, equal_weights experts X Y points = .ok ws ∧
      ws.length = experts.length ∧
      ∀ t ∈ ws, t.rows = points.rows ∧ t.cols = 1 ∧ t.dtype = points.dtype ∧
        ∀ i j, t.entry i j = 1 / (experts.length : ℚ) ∧ 0 < t.entry i j) ∧
    (∃ ws, ones_weights experts X Y points = .ok ws ∧
      ws.length = experts.length ∧
      ∀ t ∈ ws, t.rows = points.rows ∧ t.cols = 1 ∧ t.dtype = points.dtype ∧
        ∀ i j, t.entry i j = 1 ∧ 0 < t.entry i j) ∧
    (∀ ws, cao_fleet_weights log experts X Y points = .ok ws →
      ws.length = experts.length ∧
      ∀ t ∈ ws, t.rows = m ∧ t.cols = L ∧
        ∀ i j, npFloat64Eps ≤ t.entry i j ∧ 0 < t.entry i j) := by
  have h0 : ¬ experts.length = 0 := fun h => hne (List.length_eq_zero.mp h)
  have hMpos : (0 : ℚ) < (experts.length : ℚ) := by
    exact_mod_cast Nat.pos_of_ne_zero h0
  refine ⟨?_, ?_, ?_⟩
  · refine ⟨_, by rw [equal_weights, if_neg h0], by simp, ?_⟩
    intro t ht
    obtain ⟨e, he, rfl⟩ := List.mem_map.mp ht
    exact ⟨rfl, rfl, rfl, fun i j => ⟨rfl, div_pos one_pos hMpos⟩⟩
  · refine ⟨_, rfl, by simp, ?_⟩
    intro t ht
    obtain ⟨e, he, rfl⟩ := List.mem_map.mp ht
    exact ⟨rfl, rfl, rfl, fun i j => ⟨rfl, one_pos⟩⟩
  · intro ws hws
    obtain ⟨hlen, _⟩ := mapEOkInv hws
    refine ⟨hlen, ?_⟩
    intro t ht
    obtain ⟨e, he, hfe⟩ := mapEOkMem hws t ht
    obtain ⟨pr, hpr, h2⟩ := exceptBindOkInv hfe
    obtain ⟨po, hpo, h3⟩ := exceptBindOkInv h2
    injection h3 with h4
    obtain ⟨hprr, hprc⟩ := hpv e he pr hpr
    obtain ⟨hpor, hpoc⟩ := hsv e he po hpo
    rw [← h4]
    refine ⟨?_, ?_, ?_⟩
    · show max (logT log pr.2).rows (logT log po.2).rows = m
      rw [show (logT log pr.2).rows = pr.2.rows from rfl,
        show (logT log po.2).rows = po.2.rows from rfl, hprr, hpor, max_self]
    · show max (logT log pr.2).cols (logT log po.2).cols = L
      rw [show (logT log pr.2).cols = pr.2.cols from rfl,
        show (logT log po.2).cols = po.2.cols from rfl, hprc, hpoc, max_self]
    · intro i j
      refine ⟨le_max_right _ _, ?_⟩
      exact lt_of_lt_of_le npFloat64Eps_pos (le_max_right _ _)

/-- Witness for the amended C3 at concrete inputs: one stub expert, three
query points, two latent outputs. -/
theorem weight_functions_amended_witness :
    (∃ ws, equal_weights [stubExpert] (cT 2 1 0) (cT 2 2 0) (cT 3 1 0)
        = .ok ws ∧
      ws.length = [stubExpert].length ∧
      ∀ t ∈ ws, t.rows = (cT 3 1 0).rows ∧ t.cols = 1 ∧
        t.dtype = (cT 3 1 0).dtype ∧
        ∀ i j, t.entry i j = 1 / (([stubExpert].length : ℕ) : ℚ) ∧
          0 < t.entry i j) ∧
    (∃ ws, ones_weights [stubExpert] (cT 2 1 0) (cT 2 2 0) (cT 3 1 0)
        = .ok ws ∧
      ws.length = [stubExpert].length ∧
      ∀ t ∈ ws, t.rows = (cT 3 1 0).rows ∧ t.cols = 1 ∧
        t.dtype = (cT 3 1 0).dtype ∧
        ∀ i j, t.entry i j = 1 ∧ 0 < t.entry i j) ∧
    (∀ ws, cao_fleet_weights zeroLog [stubExpert] (cT 2 1 0) (cT 2 2 0)
        (cT 3 1 0) = .ok ws →
      ws.length = [stubExpert].length ∧
      ∀ t ∈ ws, t.rows = 3 ∧ t.cols = 2 ∧
        ∀ i j, npFloat64Eps ≤ t.entry i j ∧ 0 < t.entry i j) := by
  refine weight_functions_amended [stubExpert] (cT 2 1 0) (cT 2 2 0)
    (cT 3 1 0) zeroLog 3 2 (by simp) ?_ ?_
  · intro e he p hp
    have he' : e = stubExpert := by simpa using he
    subst he'
    have hp2 : (Except.ok (cT 3 2 0, cT 3 2 1) : Except Err (Tensor × Tensor))
        = .ok p := hp
    injection hp2 with h4
    rw [← h4]
    exact ⟨rfl, rfl⟩
  · intro e he p hp
    have he' : e = stubExpert := by simpa using he
    subst he'
    have hp2 : (Except.ok (cT 3 2 0, cT 3 2 1) : Except Err (Tensor × Tensor))
        = .ok p := hp
    injection hp2 with h4
    rw [← h4]
    exact ⟨rfl, rfl⟩

/-- Row-wise concatenation of a list of tensors (inverse of `tf_split`). -/
def concatRows : List Tensor → Tensor
  | [] => default
  | t :: ts =>
    let r := concatRows ts
    ⟨t.rows + r.rows, t.cols, t.dtype,
      fun i j => if i < t.rows then t.entry i j else r.entry (i - t.rows) j⟩

/-- `splitParts` produces exactly `count` chunks. -/
theorem splitParts_length (x : Tensor) (cs : Nat) :
    ∀ count off, (splitParts x cs off count).length = count := by
  intro count
  induction count with
  | zero => intro off; rfl
  | succ n ih => intro off; simp [splitParts, ih]

/-- The `k`-th chunk of `splitParts` is the slice at offset `off + k*cs`. -/
theorem splitParts_get (x : Tensor) (cs : Nat) :
    ∀ count off k (hk : k < count)
      (h : k < (splitParts x cs off count).length),
      (splitParts x cs off count).get ⟨k, h⟩ = sliceRows x (off + k * cs) cs := by
  intro count
  induction count with
  | zero => intro off k hk; exact absurd hk (by omega)
  | succ n ih =>
    intro off k hk h
    cases k with
    | zero => simp [splitParts]
    | succ k' =>
      have hk' : k' < n := by omega
      have h' : k' < (splitParts x cs (off + cs) n).length := by
        rw [splitParts_length]; exact hk'
      have := ih (off + cs) k' hk' h'
      rw [show (splitParts x cs off (n + 1)).get ⟨k' + 1, h⟩
          = (splitParts x cs (off + cs) n).get ⟨k', h'⟩ from rfl, this,
        show off + cs + k' * cs = off + (k' + 1) * cs from by ring]

/-- `zip3` of three equal-length lists has that length. -/
theorem zip3_length {as : List α} {bs : List β} {cs : List γ} :
    ∀ {n}, as.length = n → bs.length = n → cs.length = n →
      (zip3 as bs cs).length = n := by
  induction as generalizing bs cs with
  | nil =>
    intro n ha hb hc
    cases bs <;> cases cs <;> simp_all [zip3]
  | cons a as ih =>
    intro n ha hb hc
    cases bs with
    | nil => simp at ha hb; omega
    | cons b bs =>
      cases cs with
      | nil => simp at ha hc; omega
      | cons c cs =>
        cases n with
        | zero => simp at ha
        | succ n' =>
          simp only [zip3, List.length_cons]
          rw [ih (by simpa using ha) (by simpa using hb) (by simpa using hc)]

/-- Componentwise description of `zip3` on equal-length lists. -/
theorem zip3_get {as : List α} {bs : List β} {cs : List γ} :
    ∀ k (h1 : k < as.length) (h2 : k < bs.length) (h3 : k < cs.length)
      (h : k < (zip3 as bs cs).length),
      (zip3 as bs cs).get ⟨k, h⟩
        = (as.get ⟨k, h1⟩, bs.get ⟨k, h2⟩, cs.get ⟨k, h3⟩) := by
  induction as generalizing bs cs with
  | nil => intro k h1; exact absurd h1 (by simp)
  | cons a as ih =>
    intro k h1 h2 h3 h
    cases bs with
    | nil => exact absurd h2 (by simp)
    | cons b bs =>
      cases cs with
      | nil => exact absurd h3 (by simp)
      | cons c cs =>
        cases k with
        | zero => rfl
        | succ k' =>
          have h1' : k' < as.length := by simpa using h1
          have h2' : k' < bs.length := by simpa using h2
          have h3' : k' < cs.length := by simpa using h3
          have h' : k' < (zip3 as bs cs).length := by
            simpa [zip3] using h
          exact ih k' h1' h2' h3' h'

/-- Projecting the second component of `zip3` recovers the middle list. -/
theorem zip3_map_proj1 {as : List α} {bs : List β} {cs : List γ} :
    as.length = bs.length → bs.length = cs.length →
    (zip3 as bs cs).map (fun p => p.2.1) = bs := by
  induction as generalizing bs cs with
  | nil =>
    intro ha hb
    cases bs <;> cases cs <;> simp_all [zip3]
  | cons a as ih =>
    intro ha hb
    cases bs with
    | nil => simp at ha
    | cons b bs =>
      cases cs with
      | nil => simp at hb
      | cons c cs =>
        simp only [zip3, List.map_cons, List.cons.injEq]
        exact ⟨by simp, ih (by simpa using ha) (by simpa using hb)⟩

/-- Projecting the third component of `zip3` recovers the last list. -/
theorem zip3_map_proj2 {as : List α} {bs : List β} {cs : List γ} :
    as.length = bs.length → bs.length = cs.length →
    (zip3 as bs cs).map (fun p => p.2.2) = cs := by
  induction as generalizing bs cs with
  | nil =>
    intro ha hb
    cases bs <;> cases cs <;> simp_all [zip3]
  | cons a as ih =>
    intro ha hb
    cases bs with
    | nil => simp at ha
    | cons b bs =>
      cases cs with
      | nil => simp at hb
      | cons c cs =>
        simp only [zip3, List.map_cons, List.cons.injEq]
        exact ⟨by simp, ih (by simpa using ha) (by simpa using hb)⟩

/-- Concatenating the chunks of `splitParts` recovers the sliced region. -/
theorem concatRows_splitParts (x : Tensor) (cs : Nat) :
    ∀ k off, 0 < k →
      Tensor.Eqv (concatRows (splitParts x cs off k))
        (sliceRows x off (k * cs)) := by
  intro k
  induction k with
  | zero => intro off h; exact absurd h (by omega)
  | succ n ih =>
    intro off _
    cases n with
    | zero =>
      refine ⟨by show cs + 0 = 1 * cs; ring, rfl, rfl, ?_⟩
      intro i hi j hj
      show (if i < cs then x.entry (off + i) j else _) = x.entry (off + i) j
      have hi2 : i < 1 * cs := hi
      have hi' : i < cs := by
        have h1 : 1 * cs = cs := by ring
        omega
      rw [if_pos hi']
    | succ n' =>
      obtain ⟨hr, hc, hd, he⟩ := ih (off + cs) (by omega)
      refine ⟨?_, rfl, rfl, ?_⟩
      · show (sliceRows x off cs).rows
            + (concatRows (splitParts x cs (off + cs) (n' + 1))).rows
          = (n' + 2) * cs
        rw [hr]
        show cs + (n' + 1) * cs = (n' + 2) * cs
        ring
      · intro i hi j hj
        show (if i < cs then x.entry (off + i) j
            else (concatRows (splitParts x cs (off + cs) (n' + 1))).entry
              (i - cs) j) = x.entry (off + i) j
        by_cases hcase : i < cs
        · rw [if_pos hcase]
        · rw [if_neg hcase]
          have hi2 : i < (n' + 2) * cs := hi
          have hj2 : j < x.cols := hj
          have hsplit : (n' + 2) * cs = cs + (n' + 1) * cs := by ring
          have hii : i - cs < (n' + 1) * cs := by omega
          have hee := he (i - cs) hii j hj2
          rw [hee]
          show x.entry (off + cs + (i - cs)) j = x.entry (off + i) j
          congr 1
          omega

/-- Specification of a successful `Reduction._get_chunks` call: one chunk
per child in child order, each chunk a contiguous equal-size row group of
X and of Y, and the concatenation of the groups recovers X and Y. -/
def chunksSpec (children : List GPModel) (X Y : Tensor)
    (chunks : List (GPModel × Tensor × Tensor)) : Prop :=
  chunks.length = children.length ∧
  (∀ k (hk : k < chunks.length) (hk' : k < children.length),
    (chunks.get ⟨k, hk⟩).1 = children.get ⟨k, hk'⟩ ∧
    (chunks.get ⟨k, hk⟩).2.1.rows = X.rows / children.length ∧
    (chunks.get ⟨k, hk⟩).2.1.cols = X.cols ∧
    (∀ i j, (chunks.get ⟨k, hk⟩).2.1.entry i j
      = X.entry (k * (X.rows / children.length) + i) j) ∧
    (chunks.get ⟨k, hk⟩).2.2.rows = Y.rows / children.length ∧
    (chunks.get ⟨k, hk⟩).2.2.cols = Y.cols ∧
    (∀ i j, (chunks.get ⟨k, hk⟩).2.2.entry i j
      = Y.entry (k * (Y.rows / children.length) + i) j)) ∧
  Tensor.Eqv (concatRows (chunks.map (fun c => c.2.1))) X ∧
  Tensor.Eqv (concatRows (chunks.map (fun c => c.2.2))) Y

/-- Claim C9: with M children and example counts evenly divisible by M,
`Reduction._get_chunks` partitions X and Y into M contiguous equal-sized
row groups, pairs the k-th group with the k-th child, and concatenating
the groups in child order recovers X and Y exactly. -/
theorem get_chunks_partition (children : List GPModel) (X Y : Tensor)
    (h0 : 0 < children.length) (hx : X.rows % children.length = 0)
    (hy : Y.rows % children.length = 0) :
    ∃ chunks, Reduction.get_chunks children X Y = .ok chunks ∧
      chunksSpec children X Y chunks := by
  have hsx : tf_split children.length X
      = .ok (splitParts X (X.rows / children.length) 0 children.length) := by
    rw [tf_split, if_pos ⟨h0, hx⟩]
  have hsy : tf_split children.length Y
      = .ok (splitParts Y (Y.rows / children.length) 0 children.length) := by
    rw [tf_split, if_pos ⟨h0, hy⟩]
  have hlx : (splitParts X (X.rows / children.length) 0 children.length).length
      = children.length := splitParts_length X _ _ _
  have hly : (splitParts Y (Y.rows / children.length) 0 children.length).length
      = children.length := splitParts_length Y _ _ _
  have hrun : Reduction.get_chunks children X Y
      = .ok (zip3 children
          (splitParts X (X.rows / children.length) 0 children.length)
          (splitParts Y (Y.rows / children.length) 0 children.length)) := by
    simp [Reduction.get_chunks, hsx, hsy, exceptBindOk]
  refine ⟨_, hrun, ?_⟩
  unfold chunksSpec
  refine ⟨zip3_length rfl hlx hly, ?_, ?_, ?_⟩
  · intro k hk hk'
    have hxk : k < (splitParts X (X.rows / children.length) 0
        children.length).length := by rw [hlx]; exact hk'
    have hyk : k < (splitParts Y (Y.rows / children.length) 0
        children.length).length := by rw [hly]; exact hk'
    rw [zip3_get k hk' hxk hyk hk,
      splitParts_get X (X.rows / children.length) children.length 0 k hk' hxk,
      splitParts_get Y (Y.rows / children.length) children.length 0 k hk' hyk]
    refine ⟨rfl, rfl, rfl, ?_, rfl, rfl, ?_⟩
    · intro i j
      show X.entry (0 + k * (X.rows / children.length) + i) j
        = X.entry (k * (X.rows / children.length) + i) j
      rw [Nat.zero_add]
    · intro i j
      show Y.entry (0 + k * (Y.rows / children.length) + i) j
        = Y.entry (k * (Y.rows / children.length) + i) j
      rw [Nat.zero_add]
  · rw [zip3_map_proj1 hlx.symm (hlx.trans hly.symm)]
    have hMr : children.length * (X.rows / children.length) = X.rows :=
      Nat.mul_div_cancel' (Nat.dvd_of_mod_eq_zero hx)
    obtain ⟨hr, hc, hd, he⟩ :=
      concatRows_splitParts X (X.rows / children.length) children.length 0 h0
    refine ⟨hr.trans hMr, hc, hd, ?_⟩
    intro i hi j hj
    have hi2 : i < children.length * (X.rows / children.length) := by omega
    have hee := he i hi2 j hj
    rw [hee]
    show X.entry (0 + i) j = X.entry i j
    rw [Nat.zero_add]
  · rw [zip3_map_proj2 hlx.symm (hlx.trans hly.symm)]
    have hMr : children.length * (Y.rows / children.length) = Y.rows :=
      Nat.mul_div_cancel' (Nat.dvd_of_mod_eq_zero hy)
    obtain ⟨hr, hc, hd, he⟩ :=
      concatRows_splitParts Y (Y.rows / children.length) children.length 0 h0
    refine ⟨hr.trans hMr, hc, hd, ?_⟩
    intro i hi j hj
    have hi2 : i < children.length * (Y.rows / children.length) := by omega
    have hee := he i hi2 j hj
    rw [hee]
    show Y.entry (0 + i) j = Y.entry i j
    rw [Nat.zero_add]

/-- Witness for C9: two children, four examples with three input
dimensions and two outputs. -/
theorem get_chunks_partition_witness :
    (0 < [stubExpert, stubExpert].length ∧
      (cT 4 3 7).rows % [stubExpert, stubExpert].length = 0 ∧
      (cT 4 2 1).rows % [stubExpert, stubExpert].length = 0) ∧
    ∃ chunks, Reduction.get_chunks [stubExpert, stubExpert] (cT 4 3 7)
        (cT 4 2 1) = .ok chunks ∧
      chunksSpec [stubExpert, stubExpert] (cT 4 3 7) (cT 4 2 1) chunks :=
  ⟨⟨by decide, by decide, by decide⟩,
   get_chunks_partition [stubExpert, stubExpert] (cT 4 3 7) (cT 4 2 1)
     (by decide) (by decide) (by decide)⟩

/-- Inside the shape, broadcast lookup is plain lookup. -/
theorem bentry_eq_entry_of_lt (t : Tensor) {i j : Nat} (hi : i < t.rows)
    (hj : j < t.cols) : t.bentry i j = t.entry i j := by
  unfold Tensor.bentry
  have h1 : (if t.rows = 1 then 0 else i) = i := by split <;> omega
  have h2 : (if t.cols = 1 then 0 else j) = j := by split <;> omega
  rw [h1, h2]

/-- Broadcast lookup respects semantic equality inside the shape. -/
theorem bentry_congr {a b : Tensor} (h : Tensor.Eqv a b) {i j : Nat}
    (hi : i < b.rows) (hj : j < b.cols) : a.bentry i j = b.bentry i j := by
  obtain ⟨hr, hc, hd, he⟩ := h
  unfold Tensor.bentry
  rw [hr, hc]
  apply he
  · split <;> omega
  · split <;> omega

/-- Congruence of elementwise binary operations in the left argument, when
the right argument does not broadcast beyond the left one. -/
theorem ewBin_congr_left (f : ℚ → ℚ → ℚ) {a b : Tensor} (c : Tensor)
    (h : Tensor.Eqv a b) (hcr : c.rows ≤ b.rows) (hcc : c.cols ≤ b.cols) :
    Tensor.Eqv (ewBin f a c) (ewBin f b c) := by
  obtain ⟨hr, hc, hd, he⟩ := h
  refine ⟨by show max a.rows c.rows = max b.rows c.rows; rw [hr],
    by show max a.cols c.cols = max b.cols c.cols; rw [hc], hd, ?_⟩
  intro i hi j hj
  have hib : i < b.rows := by
    have h2 : i < max b.rows c.rows := hi
    omega
  have hjb : j < b.cols := by
    have h2 : j < max b.cols c.cols := hj
    omega
  show f (a.bentry i j) (c.bentry i j) = f (b.bentry i j) (c.bentry i j)
  rw [bentry_congr ⟨hr, hc, hd, he⟩ hib hjb]

/-- Congruence of scalar-over-tensor division. -/
theorem scalarDivT_congr (c : ℚ) {a b : Tensor} (h : Tensor.Eqv a b) :
    Tensor.Eqv (scalarDivT c a) (scalarDivT c b) := by
  obtain ⟨hr, hc, hd, he⟩ := h
  refine ⟨hr, hc, hd, ?_⟩
  intro i hi j hj
  show c / a.entry i j = c / b.entry i j
  rw [he i hi j hj]

/-- Shape of a sum of a nonempty uniform-shape tensor list. -/
theorem sumTensors_shape : ∀ (l : List Tensor) (r c : Nat), l ≠ [] →
    (∀ t ∈ l, t.rows = r ∧ t.cols = c) →
    (sumTensors l).rows = r ∧ (sumTensors l).cols = c
  | [], _, _, h, _ => absurd rfl h
  | [t], r, c, _, hu => hu t (by simp)
  | t :: u :: ts, r, c, _, hu => by
    obtain ⟨hr, hc⟩ := sumTensors_shape (u :: ts) r c (by simp)
      (fun s hs => hu s (List.mem_cons_of_mem t hs))
    obtain ⟨h1, h2⟩ := hu t (by simp)
    constructor
    · show max t.rows (sumTensors (u :: ts)).rows = r
      rw [h1, hr, Nat.max_self]
    · show max t.cols (sumTensors (u :: ts)).cols = c
      rw [h2, hc, Nat.max_self]

/-- In-shape entries of a sum of a nonempty uniform-shape tensor list. -/
theorem sumTensors_entry : ∀ (l : List Tensor) (r c : Nat), l ≠ [] →
    (∀ t ∈ l, t.rows = r ∧ t.cols = c) →
    ∀ i, i < r → ∀ j, j < c →
      (sumTensors l).entry i j = (l.map (fun t => t.entry i j)).sum
  | [], _, _, h, _ => absurd rfl h
  | [t], r, c, _, hu => by
    intro i hi j hj
    show t.entry i j = (List.map (fun t => t.entry i j) [t]).sum
    simp
  | t :: u :: ts, r, c, _, hu => by
    intro i hi j hj
    have ih := sumTensors_entry (u :: ts) r c (by simp)
      (fun s hs => hu s (List.mem_cons_of_mem t hs)) i hi j hj
    obtain ⟨hSr, hSc⟩ := sumTensors_shape (u :: ts) r c (by simp)
      (fun s hs => hu s (List.mem_cons_of_mem t hs))
    obtain ⟨htr, htc⟩ := hu t (by simp)
    show t.bentry i j + (sumTensors (u :: ts)).bentry i j
      = (List.map (fun t => t.entry i j) (t :: u :: ts)).sum
    rw [bentry_eq_entry_of_lt t (by rw [htr]; exact hi) (by rw [htc]; exact hj),
      bentry_eq_entry_of_lt _ (by rw [hSr]; exact hi) (by rw [hSc]; exact hj),
      ih]
    simp

/-- Members of `List.zipWith` come from members of the two lists. -/
theorem zipWith_mem_inv {f : α → β → γ} :
    ∀ {as : List α} {bs : List β} {x}, x ∈ List.zipWith f as bs →
      ∃ a ∈ as, ∃ b ∈ bs, x = f a b := by
  intro as
  induction as with
  | nil => intro bs x hx; simp at hx
  | cons a as ih =>
    intro bs x hx
    cases bs with
    | nil => simp at hx
    | cons b bs =>
      rcases List.mem_cons.mp hx with hx | hx
      · exact ⟨a, by simp, b, by simp, hx⟩
      · obtain ⟨a', ha, b', hb, hfx⟩ := ih hx
        exact ⟨a', List.mem_cons_of_mem a ha, b', List.mem_cons_of_mem b hb, hfx⟩

/-- Members of `zipWith3T` come from members of the three lists. -/
theorem zipWith3T_mem_inv {f : α → β → γ → δ} :
    ∀ {as : List α} {bs : List β} {cs : List γ} {x},
      x ∈ zipWith3T f as bs cs →
      ∃ a ∈ as, ∃ b ∈ bs, ∃ c ∈ cs, x = f a b c := by
  intro as
  induction as with
  | nil => intro bs cs x hx; simp [zipWith3T] at hx
  | cons a as ih =>
    intro bs cs x hx
    cases bs with
    | nil => simp [zipWith3T] at hx
    | cons b bs =>
      cases cs with
      | nil => simp [zipWith3T] at hx
      | cons c cs =>
        rcases List.mem_cons.mp hx with hx | hx
        · exact ⟨a, by simp, b, by simp, c, by simp, hx⟩
        · obtain ⟨a', ha, b', hb, c', hc, hfx⟩ := ih hx
          exact ⟨a', List.mem_cons_of_mem a ha, b', List.mem_cons_of_mem b hb,
            c', List.mem_cons_of_mem c hc, hfx⟩

/-- The first component of any `zip3` member belongs to the first list. -/
theorem zip3_mem_fst :
    ∀ {as : List α} {bs : List β} {cs : List γ} {x : α × β × γ},
      x ∈ zip3 as bs cs → x.1 ∈ as := by
  intro as
  induction as with
  | nil => intro bs cs x hx; simp [zip3] at hx
  | cons a as ih =>
    intro bs cs x hx
    cases bs with
    | nil => simp [zip3] at hx
    | cons b bs =>
      cases cs with
      | nil => simp [zip3] at hx
      | cons c cs =>
        rcases List.mem_cons.mp hx with hx | hx
        · rw [hx]; simp
        · exact List.mem_cons_of_mem a (ih hx)

/-- Inversion of a successful `Reduction._get_chunks` call: one chunk per
child, each chunk's expert being one of the children. -/
theorem get_chunks_ok_inv {children : List GPModel} {X Y : Tensor}
    {chunks : List (GPModel × Tensor × Tensor)}
    (h : Reduction.get_chunks children X Y = .ok chunks) :
    chunks.length = children.length ∧ ∀ c ∈ chunks, c.1 ∈ children := by
  unfold Reduction.get_chunks at h
  obtain ⟨xs, hxs, h2⟩ := exceptBindOkInv h
  obtain ⟨ys, hys, h3⟩ := exceptBindOkInv h2
  injection h3 with h4
  subst h4
  rw [tf_split] at hxs hys
  split at hxs
  case isTrue =>
    split at hys
    case isTrue =>
      injection hxs with h5
      injection hys with h6
      subst h5
      subst h6
      constructor
      · exact zip3_length rfl (splitParts_length X _ _ _)
          (splitParts_length Y _ _ _)
      · intro c hc
        exact zip3_mem_fst hc
    case isFalse => simp at hys
  case isFalse => simp at hxs

/-- Broadcast lookup through scalar-minus-tensor. -/
theorem scalarSubT_bentry (c : ℚ) (t : Tensor) (i j : Nat) :
    (scalarSubT c t).bentry i j = c - t.bentry i j := rfl

/-- The rBCM prior-correction term vanishes when the weights sum to one:
adding `(1 - reduce_sum(weight)) / prior_var` to the gPoE precision sum
leaves it unchanged (as a tensor, semantically). -/
theorem rbcm_correction_vanishes (ws vs : List Tensor) (pv : Tensor)
    (m L mw cw : Nat) (hwne : ws ≠ []) (hvne : vs ≠ [])
    (hws : ∀ w ∈ ws, w.rows = mw ∧ w.cols = cw)
    (hvs : ∀ v ∈ vs, v.rows = m ∧ v.cols = L)
    (hpv : pv.rows = m ∧ pv.cols = L)
    (hmw : mw = 1 ∨ mw = m) (hcw : cw = 1 ∨ cw = L)
    (hm : 0 < m) (hL : 0 < L)
    (hw1 : ∀ i, i < mw → ∀ j, j < cw →
      (ws.map (fun w => w.entry i j)).sum = 1) :
    Tensor.Eqv
      (ewAdd (sumTensors (List.zipWith ewDiv ws vs))
        (ewDiv (scalarSubT 1 (sumTensors ws)) pv))
      (sumTensors (List.zipWith ewDiv ws vs)) := by
  have hmaxr : max mw m = m := by
    rcases hmw with h | h <;> omega
  have hmaxc : max cw L = L := by
    rcases hcw with h | h <;> omega
  have hzs : ∀ t ∈ List.zipWith ewDiv ws vs, t.rows = m ∧ t.cols = L := by
    intro t ht
    obtain ⟨w, hw, v, hv, hft⟩ := zipWith_mem_inv ht
    obtain ⟨hwr, hwc⟩ := hws w hw
    obtain ⟨hvr, hvc⟩ := hvs v hv
    subst hft
    constructor
    · show max w.rows v.rows = m
      rw [hwr, hvr, hmaxr]
    · show max w.cols v.cols = L
      rw [hwc, hvc, hmaxc]
  have hzne : List.zipWith ewDiv ws vs ≠ [] := by
    cases ws with
    | nil => exact absurd rfl hwne
    | cons w ws' =>
      cases vs with
      | nil => exact absurd rfl hvne
      | cons v vs' => simp
  obtain ⟨hSr, hSc⟩ := sumTensors_shape _ m L hzne hzs
  obtain ⟨hWr, hWc⟩ := sumTensors_shape ws mw cw hwne hws
  have hEr : (ewDiv (scalarSubT 1 (sumTensors ws)) pv).rows = m := by
    show max (sumTensors ws).rows pv.rows = m
    rw [hWr, hpv.1, hmaxr]
  have hEc : (ewDiv (scalarSubT 1 (sumTensors ws)) pv).cols = L := by
    show max (sumTensors ws).cols pv.cols = L
    rw [hWc, hpv.2, hmaxc]
  refine ⟨?_, ?_, rfl, ?_⟩
  · show max (sumTensors (List.zipWith ewDiv ws vs)).rows
        (ewDiv (scalarSubT 1 (sumTensors ws)) pv).rows
      = (sumTensors (List.zipWith ewDiv ws vs)).rows
    rw [hSr, hEr, Nat.max_self]
  · show max (sumTensors (List.zipWith ewDiv ws vs)).cols
        (ewDiv (scalarSubT 1 (sumTensors ws)) pv).cols
      = (sumTensors (List.zipWith ewDiv ws vs)).cols
    rw [hSc, hEc, Nat.max_self]
  · intro i hi j hj
    have him : i < m := by rw [hSr] at hi; exact hi
    have hjL : j < L := by rw [hSc] at hj; exact hj
    have hSW : (sumTensors ws).bentry i j = 1 := by
      unfold Tensor.bentry
      rw [hWr, hWc]
      have hci : (if mw = 1 then 0 else i) < mw := by
        split
        · omega
        · rcases hmw with h | h
          · omega
          · omega
      have hcj : (if cw = 1 then 0 else j) < cw := by
        split
        · omega
        · rcases hcw with h | h
          · omega
          · omega
      rw [sumTensors_entry ws mw cw hwne hws _ hci _ hcj]
      exact hw1 _ hci _ hcj
    have hE : (ewDiv (scalarSubT 1 (sumTensors ws)) pv).bentry i j = 0 := by
      rw [bentry_eq_entry_of_lt _ (by rw [hEr]; exact him)
        (by rw [hEc]; exact hjL)]
      show (scalarSubT 1 (sumTensors ws)).bentry i j / pv.bentry i j = 0
      rw [scalarSubT_bentry, hSW]
      simp
    show (sumTensors (List.zipWith ewDiv ws vs)).bentry i j
        + (ewDiv (scalarSubT 1 (sumTensors ws)) pv).bentry i j
      = (sumTensors (List.zipWith ewDiv ws vs)).entry i j
    rw [hE, add_zero,
      bentry_eq_entry_of_lt _ (by rw [hSr]; exact him) (by rw [hSc]; exact hjL)]

/-- Claim C4: whenever the weight function's weights sum to exactly 1 at
every (query point, latent output) pair, `rBCMReduction
.build_posterior_mean_var` yields the same joint variance and mean as
`gPoEReduction.build_posterior_mean_var` with the same children and weight
function: the prior-correction term vanishes.  The shape hypotheses state
the broadcast-compatibility the source's packed tensor operations
require. -/
theorem rBCM_eq_gPoE_of_weights_sum_one (children : List GPModel)
    (wf : WeightFn) (X Y test_points : Tensor)
    (mu_r var_r mu_g var_g : Tensor) (m L mw cw : Nat)
    (hr : rBCMReduction.build_posterior_mean_var children wf X Y test_points
      false = .ok (mu_r, var_r))
    (hg : gPoEReduction.build_posterior_mean_var children wf X Y test_points
      false = .ok (mu_g, var_g))
    (hne : children ≠ []) (hm : 0 < m) (hL : 0 < L)
    (hmw : mw = 1 ∨ mw = m) (hcw : cw = 1 ∨ cw = L)
    (hpost : ∀ c ∈ children, ∀ (Xk Yk : Tensor) (p : Tensor × Tensor),
      c.build_posterior_mean_var Xk Yk test_points false = .ok p →
        p.1.rows = m ∧ p.1.cols = L ∧ p.2.rows = m ∧ p.2.cols = L)
    (hprior : ∀ c ∈ children, ∀ p : Tensor × Tensor,
      c.build_prior_mean_var test_points Y.cols false = .ok p →
        p.2.rows = m ∧ p.2.cols = L)
    (hwf : ∀ ws, wf children X Y test_points = .ok ws →
      ws.length = children.length ∧
      (∀ w ∈ ws, w.rows = mw ∧ w.cols = cw) ∧
      (∀ i, i < mw → ∀ j, j < cw →
        (ws.map (fun w => w.entry i j)).sum = 1)) :
    Tensor.Eqv var_r var_g ∧ Tensor.Eqv mu_r mu_g := by
  have hMne : children.length ≠ 0 := fun h => hne (List.length_eq_zero.mp h)
  rw [rBCMReduction.build_posterior_mean_var, if_neg (by simp)] at hr
  rw [gPoEReduction.build_posterior_mean_var, if_neg (by simp)] at hg
  obtain ⟨chunks, hchunks, hr⟩ := exceptBindOkInv hr
  obtain ⟨mv, hmv, hr⟩ := exceptBindOkInv hr
  obtain ⟨ws, hws, hr⟩ := exceptBindOkInv hr
  obtain ⟨prior, hprior2, hr⟩ := exceptBindOkInv hr
  injection hr with hpair
  rw [Prod.mk.injEq] at hpair
  obtain ⟨hmuR, hvarR⟩ := hpair
  obtain ⟨chunks', hchunks', hg⟩ := exceptBindOkInv hg
  have hceq : chunks = chunks' := by
    have h2 := hchunks.symm.trans hchunks'
    injection h2 with h3
  subst hceq
  obtain ⟨mv', hmv', hg⟩ := exceptBindOkInv hg
  have hmveq : mv = mv' := by
    have h2 := hmv.symm.trans hmv'
    injection h2 with h3
  subst hmveq
  obtain ⟨ws', hws', hg⟩ := exceptBindOkInv hg
  have hwseq : ws = ws' := by
    have h2 := hws.symm.trans hws'
    injection h2 with h3
  subst hwseq
  injection hg with hpair'
  rw [Prod.mk.injEq] at hpair'
  obtain ⟨hmuG, hvarG⟩ := hpair'
  -- shape bookkeeping
  obtain ⟨hchlen, hchmem⟩ := get_chunks_ok_inv hchunks
  obtain ⟨hmvlen, _⟩ := mapEOkInv hmv
  obtain ⟨hwlen, hwsu, hw1⟩ := hwf ws hws
  have hmaxr : max mw m = m := by rcases hmw with h | h <;> omega
  have hmaxc : max cw L = L := by rcases hcw with h | h <;> omega
  have hvsu : ∀ v ∈ mv.map (fun p => p.2), v.rows = m ∧ v.cols = L := by
    intro v hv
    obtain ⟨p, hp, hpv⟩ := List.mem_map.mp hv
    obtain ⟨c, hc, hfc⟩ := mapEOkMem hmv p hp
    obtain ⟨_, _, h3, h4⟩ := hpost c.1 (hchmem c hc) c.2.1 c.2.2 p hfc
    rw [← hpv]
    exact ⟨h3, h4⟩
  have hmusu : ∀ u ∈ mv.map (fun p => p.1), u.rows = m ∧ u.cols = L := by
    intro u hu
    obtain ⟨p, hp, hpu⟩ := List.mem_map.mp hu
    obtain ⟨c, hc, hfc⟩ := mapEOkMem hmv p hp
    obtain ⟨h1, h2, _, _⟩ := hpost c.1 (hchmem c hc) c.2.1 c.2.2 p hfc
    rw [← hpu]
    exact ⟨h1, h2⟩
  have hwne : ws ≠ [] := by
    intro hempty
    rw [hempty] at hwlen
    exact hMne hwlen.symm
  have hmvne : mv ≠ [] := by
    intro hempty
    rw [hempty] at hmvlen
    exact hMne (hchlen.symm.trans hmvlen.symm)
  have hvne : mv.map (fun p => p.2) ≠ [] := by
    intro hempty
    exact hmvne (List.map_eq_nil.mp hempty)
  -- the prior variance of the reduction has shape (m, L)
  rw [Reduction.build_prior_mean_var, if_neg (by simp)] at hprior2
  obtain ⟨pmv, hpmv, hprior2⟩ := exceptBindOkInv hprior2
  injection hprior2 with h5
  have hpmvlen := (mapEOkInv hpmv).1
  have hpmvne : pmv.map (fun p => p.2) ≠ [] := by
    intro hempty
    have h6 := List.map_eq_nil.mp hempty
    rw [h6] at hpmvlen
    exact hMne hpmvlen.symm
  have hpmvu : ∀ v ∈ pmv.map (fun p => p.2), v.rows = m ∧ v.cols = L := by
    intro v hv
    obtain ⟨p, hp, hpv⟩ := List.mem_map.mp hv
    obtain ⟨c, hc, hfc⟩ := mapEOkMem hpmv p hp
    rw [← hpv]
    exact hprior c hc p hfc
  have hpv2 : prior.2
      = divScalarT (sumTensors (pmv.map (fun p => p.2)))
          (children.length : ℚ) := by
    rw [← h5]
  obtain ⟨hpvr, hpvc⟩ := sumTensors_shape (pmv.map (fun p => p.2)) m L
    hpmvne hpmvu
  have hpvshape : prior.2.rows = m ∧ prior.2.cols = L := by
    rw [hpv2]
    exact ⟨hpvr, hpvc⟩
  -- the two joint precisions agree
  have hkey := rbcm_correction_vanishes ws (mv.map (fun p => p.2)) prior.2
    m L mw cw hwne hvne hwsu hvsu hpvshape hmw hcw hm hL hw1
  have hvar : Tensor.Eqv var_r var_g := by
    rw [← hvarR, ← hvarG]
    exact scalarDivT_congr 1 hkey
  refine ⟨hvar, ?_⟩
  -- shapes of the precision sum and the weighted mean sum
  have hzs : ∀ t ∈ List.zipWith ewDiv ws (mv.map (fun p => p.2)),
      t.rows = m ∧ t.cols = L := by
    intro t ht
    obtain ⟨w, hw, v, hv, hft⟩ := zipWith_mem_inv ht
    obtain ⟨hwr, hwc⟩ := hwsu w hw
    obtain ⟨hvr, hvc⟩ := hvsu v hv
    subst hft
    constructor
    · show max w.rows v.rows = m
      rw [hwr, hvr, hmaxr]
    · show max w.cols v.cols = L
      rw [hwc, hvc, hmaxc]
  have hzne : List.zipWith ewDiv ws (mv.map (fun p => p.2)) ≠ [] := by
    cases hws2 : ws with
    | nil => exact absurd hws2 hwne
    | cons w ws2 =>
      cases hvs2 : mv.map (fun p => p.2) with
      | nil => exact absurd hvs2 hvne
      | cons v vs2 => simp
  obtain ⟨hSr, hSc⟩ := sumTensors_shape _ m L hzne hzs
  have hsmu : ∀ t ∈ zipWith3T (fun w mu v => ewDiv (ewMul w mu) v) ws
      (mv.map (fun p => p.1)) (mv.map (fun p => p.2)),
      t.rows = m ∧ t.cols = L := by
    intro t ht
    obtain ⟨w, hw, mu, hmu, v, hv, hft⟩ := zipWith3T_mem_inv ht
    obtain ⟨hwr, hwc⟩ := hwsu w hw
    obtain ⟨hmur, hmuc⟩ := hmusu mu hmu
    obtain ⟨hvr, hvc⟩ := hvsu v hv
    subst hft
    constructor
    · show max (max w.rows mu.rows) v.rows = m
      rw [hwr, hmur, hvr, hmaxr, Nat.max_self]
    · show max (max w.cols mu.cols) v.cols = L
      rw [hwc, hmuc, hvc, hmaxc, Nat.max_self]
  have hsmne : zipWith3T (fun w mu v => ewDiv (ewMul w mu) v) ws
      (mv.map (fun p => p.1)) (mv.map (fun p => p.2)) ≠ [] := by
    cases hws2 : ws with
    | nil => exact absurd hws2 hwne
    | cons w ws2 =>
      cases hmv2 : mv with
      | nil => exact absurd hmv2 hmvne
      | cons p mv2 => simp [zipWith3T]
  obtain ⟨hSMr, hSMc⟩ := sumTensors_shape _ m L hsmne hsmu
  have hvar' : Tensor.Eqv
      (recipT (ewAdd (sumTensors (List.zipWith ewDiv ws
          (mv.map (fun p => p.2))))
        (ewDiv (scalarSubT 1 (sumTensors ws)) prior.2)))
      (recipT (sumTensors (List.zipWith ewDiv ws
          (mv.map (fun p => p.2))))) := scalarDivT_congr 1 hkey
  rw [← hmuR, ← hmuG]
  exact ewBin_congr_left (· * ·) _ hvar'
    (by show (sumTensors _).rows ≤ (sumTensors _).rows; rw [hSMr, hSr])
    (by show (sumTensors _).cols ≤ (sumTensors _).cols; rw [hSMc, hSc])

/-- A stub expert with fixed output shapes: posterior and prior both have
mean 0 and variance 1 on three query points with one latent output. -/
def fixedExpert : GPModel where
  build_log_likelihood := fun _ _ => .ok 0
  build_prior_mean_var := fun _ _ _ => .ok (cT 3 1 0, cT 3 1 1)
  build_posterior_mean_var := fun _ _ _ _ => .ok (cT 3 1 0, cT 3 1 1)

/-- The (mean, variance) pair of a successful posterior computation. -/
def okPair (e : Except Err (Tensor × Tensor)) : Tensor × Tensor :=
  e.toOption.getD (default, default)

/-- Witness for C4: two fixed stub experts with weights 1/2 each. -/
theorem rBCM_eq_gPoE_of_weights_sum_one_witness :
    Tensor.Eqv
      (okPair (rBCMReduction.build_posterior_mean_var
        [fixedExpert, fixedExpert] halfWeights (cT 2 1 0) (cT 2 1 0)
        (cT 3 1 0) false)).2
      (okPair (gPoEReduction.build_posterior_mean_var
        [fixedExpert, fixedExpert] halfWeights (cT 2 1 0) (cT 2 1 0)
        (cT 3 1 0) false)).2 ∧
    Tensor.Eqv
      (okPair (rBCMReduction.build_posterior_mean_var
        [fixedExpert, fixedExpert] halfWeights (cT 2 1 0) (cT 2 1 0)
        (cT 3 1 0) false)).1
      (okPair (gPoEReduction.build_posterior_mean_var
        [fixedExpert, fixedExpert] halfWeights (cT 2 1 0) (cT 2 1 0)
        (cT 3 1 0) false)).1 := by
  rcases hR : rBCMReduction.build_posterior_mean_var
      [fixedExpert, fixedExpert] halfWeights (cT 2 1 0) (cT 2 1 0)
      (cT 3 1 0) false with e | pr
  · have hok : (rBCMReduction.build_posterior_mean_var
        [fixedExpert, fixedExpert] halfWeights (cT 2 1 0) (cT 2 1 0)
        (cT 3 1 0) false).isOk = true := rfl
    rw [hR] at hok
    simp [Except.isOk, Except.toBool] at hok
  · rcases hG : gPoEReduction.build_posterior_mean_var
        [fixedExpert, fixedExpert] halfWeights (cT 2 1 0) (cT 2 1 0)
        (cT 3 1 0) false with e | pg
    · have hok : (gPoEReduction.build_posterior_mean_var
          [fixedExpert, fixedExpert] halfWeights (cT 2 1 0) (cT 2 1 0)
          (cT 3 1 0) false).isOk = true := rfl
      rw [hG] at hok
      simp [Except.isOk, Except.toBool] at hok
    · cases pr with
      | mk mu_r var_r =>
        cases pg with
        | mk mu_g var_g =>
          have h := rBCM_eq_gPoE_of_weights_sum_one
            [fixedExpert, fixedExpert] halfWeights (cT 2 1 0) (cT 2 1 0)
            (cT 3 1 0) mu_r var_r mu_g var_g 3 1 3 1 hR hG
            (by simp) (by decide) (by decide) (Or.inr rfl) (Or.inl rfl)
            ?_ ?_ ?_
          · exact ⟨h.1, h.2⟩
          · intro c hc Xk Yk p hp
            have hc' : c = fixedExpert := by
              rcases List.mem_cons.mp hc with h1 | h1
              · exact h1
              · simpa using h1
            subst hc'
            have hp2 : (Except.ok (cT 3 1 0, cT 3 1 1) :
                Except Err (Tensor × Tensor)) = .ok p := hp
            injection hp2 with h4
            rw [← h4]
            exact ⟨rfl, rfl, rfl, rfl⟩
          · intro c hc p hp
            have hc' : c = fixedExpert := by
              rcases List.mem_cons.mp hc with h1 | h1
              · exact h1
              · simpa using h1
            subst hc'
            have hp2 : (Except.ok (cT 3 1 0, cT 3 1 1) :
                Except Err (Tensor × Tensor)) = .ok p := hp
            injection hp2 with h4
            rw [← h4]
            exact ⟨rfl, rfl⟩
          · intro ws hws
            have hws2 : (Except.ok [cT 3 1 (1 / 2), cT 3 1 (1 / 2)] :
                Except Err (List Tensor)) = .ok ws := hws
            injection hws2 with h4
            rw [← h4]
            refine ⟨rfl, ?_, ?_⟩
            · intro w hw
              rcases List.mem_cons.mp hw with h1 | h1
              · rw [h1]; exact ⟨rfl, rfl⟩
              · have h2 : w = cT 3 1 (1 / 2) := by simpa using h1
                rw [h2]; exact ⟨rfl, rfl⟩
            · intro i hi j hj
              show (1 : ℚ) / 2 + (1 / 2 + 0) = 1
              norm_num
